import Mathlib

/-!
Shallow embedding of `wordcount` (`src/lib.rs`): the `CountOption` enum, and the
`count` function that reads UTF-8 text line by line from a byte stream and
builds a frequency table of characters, words or lines.

Modelling choices:
* The `impl BufRead` input is a fully materialised byte stream, `List Nat`
  (each element one byte).
* `input.lines()` is embedded byte for byte: split the stream at `0x0A`
  (reading byte by byte, as `read_until` does), validate each chunk as UTF-8
  (`read_line` returns `InvalidData` on a chunk that is not valid UTF-8;
  the trailing `0x0A`, being ASCII, does not affect validity), then strip a
  trailing `'\r'` from a chunk that was terminated by `0x0A`.  A final chunk
  at end of stream without a terminator is yielded as is, `'\r'` included,
  exactly as `std::io::Lines` does.
* The panic of `line.unwrap()` on an invalid line is embedded as `Option`:
  `count` returns `none` (no table at all) when any line fails to decode.
* `HashMap<String, usize>` is embedded as an association list in insertion
  order with unique keys; `*freqs.entry(k).or_insert(0) += 1` is `incr`.
  The hash map itself is unordered, so every claim proved below about the
  table is a claim about its key/count content, which the association list
  determines.
* The regex `\w+` applied with `find_iter` yields the maximal runs of word
  characters.  The `regex` crate's `\w` is Unicode-aware; its classification
  tables are not available in this environment, so `isWordChar` embeds only
  the ASCII part of the class (`[0-9A-Za-z_]`, on which the crate's `\w`
  agrees).  Word-mode results are therefore faithful to the program exactly
  when every word character of the input is ASCII; on non-ASCII word
  characters (e.g. `'é'`) the model and the program diverge, and no theorem
  below speaks about Word-mode tokenization of such input.
-/

/-- Options used in `count` (`CountOption` in `src/lib.rs`). -/
inductive CountOption where
  /-- count frequency for each character -/
  | Char : CountOption
  /-- count frequency for each word -/
  | Word : CountOption
  /-- count frequency per line -/
  | Line : CountOption
deriving DecidableEq, Repr

/-- `impl Default for CountOption { fn default() -> Self { CountOption::Word } }`. -/
instance : Inhabited CountOption := ⟨CountOption.Word⟩

/-- A UTF-8 continuation byte: `0x80 ..= 0xBF`. -/
def isCont (b : Nat) : Bool := 0x80 ≤ b && b ≤ 0xBF

/-- Strict UTF-8 decoding of a byte list into its Unicode scalar values,
embedding the validation `String::from_utf8` performs inside
`BufRead::read_line` (overlong encodings, surrogates and out-of-range
sequences are all rejected, exactly as in Rust's `core::str` validation
tables). `none` is the `InvalidData` error that makes `line.unwrap()` panic. -/
def utf8Decode : List Nat → Option (List Char)
  | [] => some []
  | b :: bs =>
    if b ≤ 0x7F then
      (utf8Decode bs).map (fun cs => Char.ofNat b :: cs)
    else if 0xC2 ≤ b && b ≤ 0xDF then
      match bs with
      | b2 :: bs2 =>
        if isCont b2 then
          (utf8Decode bs2).map (fun cs =>
            Char.ofNat ((b - 0xC0) * 0x40 + (b2 - 0x80)) :: cs)
        else none
      | [] => none
    else if 0xE0 ≤ b && b ≤ 0xEF then
      match bs with
      | b2 :: b3 :: bs3 =>
        if ((if b == 0xE0 then 0xA0 else 0x80) ≤ b2
              && b2 ≤ (if b == 0xED then 0x9F else 0xBF))
            && isCont b3 then
          (utf8Decode bs3).map (fun cs =>
            Char.ofNat ((b - 0xE0) * 0x1000 + (b2 - 0x80) * 0x40 + (b3 - 0x80)) :: cs)
        else none
      | _ => none
    else if 0xF0 ≤ b && b ≤ 0xF4 then
      match bs with
      | b2 :: b3 :: b4 :: bs4 =>
        if ((if b == 0xF0 then 0x90 else 0x80) ≤ b2
              && b2 ≤ (if b == 0xF4 then 0x8F else 0xBF))
            && isCont b3 && isCont b4 then
          (utf8Decode bs4).map (fun cs =>
            Char.ofNat ((b - 0xF0) * 0x40000 + (b2 - 0x80) * 0x1000
              + (b3 - 0x80) * 0x40 + (b4 - 0x80)) :: cs)
        else none
      | _ => none
    else none

/-- Byte-by-byte splitting of the input stream at `0x0A`, as
`BufRead::read_until(b'\n')` does inside `lines()`.  Each produced chunk
excludes the `0x0A` itself and carries a flag telling whether it was
terminated by `0x0A` (`true`) or by end of stream (`false`); a read that
hits end of stream with an empty buffer yields nothing. -/
def splitLinesAux (acc : List Nat) : List Nat → List (List Nat × Bool)
  | [] => if acc.isEmpty then [] else [(acc, false)]
  | b :: bs =>
    if b = 0x0A then (acc, true) :: splitLinesAux [] bs
    else splitLinesAux (acc ++ [b]) bs

/-- The chunks `input.lines()` reads from the byte stream, before UTF-8
decoding and `\r` stripping. -/
def splitLines (input : List Nat) : List (List Nat × Bool) :=
  splitLinesAux [] input

/-- Strip one trailing `'\r'`, as `Lines::next` does after popping the
`'\n'`. -/
def stripTrailingCR (s : List Char) : List Char :=
  if s.getLast? = some '\r' then s.dropLast else s

/-- One step of `input.lines()`: decode the chunk as UTF-8 (`read_line`),
then, when the chunk was terminated by `0x0A`, strip a trailing `'\r'`
(`Lines::next` pops the `'\n'` and then a trailing `'\r'`; a final chunk
with no terminator keeps its `'\r'`). -/
def readLine (chunk : List Nat × Bool) : Option (List Char) :=
  match utf8Decode chunk.1 with
  | none => none
  | some s => some (if chunk.2 then stripTrailingCR s else s)

/-- The ASCII part of the `\w` character class of the `regex` crate as used
by `count`: an ASCII letter, an ASCII digit, or the underscore
(`Char.isAlpha`/`Char.isDigit` are ASCII-only).  The crate's `\w` agrees
with this predicate on ASCII but also matches non-ASCII word characters,
which this embedding cannot classify (no Unicode tables); see the module
comment. -/
def isWordChar (c : Char) : Bool := c.isAlpha || c.isDigit || c = '_'

/-- Left-to-right scan of a line for the maximal runs of word characters:
the successive matches `re.find_iter(&line)` yields for the regex `\w+`.
`cur` is the run being accumulated. -/
def wordRunsAux (cur : List Char) : List Char → List (List Char)
  | [] => if cur.isEmpty then [] else [cur]
  | c :: cs =>
    if isWordChar c then wordRunsAux (cur ++ [c]) cs
    else if cur.isEmpty then wordRunsAux [] cs
    else cur :: wordRunsAux [] cs

/-- The matches of `\w+` over a line, in order. -/
def wordRuns (line : List Char) : List (List Char) :=
  wordRunsAux [] line

/-- The tokens one line contributes, by mode: the bodies of the three arms of
the `match option` in `count`.
* `Char`: `for c in line.chars()` counts `c.to_string()`;
* `Word`: `for m in re.find_iter(&line)` counts `m.as_str().to_string()`;
* `Line`: counts `line.to_string()` once. -/
def tokenize (option : CountOption) (line : List Char) : List String :=
  match option with
  | CountOption.Char => line.map (fun c => c.toString)
  | CountOption.Word => (wordRuns line).map (fun r => String.mk r)
  | CountOption.Line => [String.mk line]

/-- The `HashMap<String, usize>` result, as an association list in insertion
order with unique keys. -/
abbrev FreqTable := List (String × Nat)

/-- `*freqs.entry(k).or_insert(0) += 1`: bump the count of `k`, inserting it
at count `0` first when absent. -/
def incr : FreqTable → String → FreqTable
  | [], k => [(k, 1)]
  | (k', v) :: rest, k =>
    if k' = k then (k', v + 1) :: rest else (k', v) :: incr rest k

/-- The count the table associates to a key (`0` when absent): the key/count
content of the `HashMap`. -/
def getCount : FreqTable → String → Nat
  | [], _ => 0
  | (k', v) :: rest, k => if k' = k then v else getCount rest k

/-- The sum of all counts in the table. -/
def sumCounts (freqs : FreqTable) : Nat :=
  (freqs.map Prod.snd).sum

/-- The body of the `for line in input.lines()` loop for one decoded line:
every token the line yields bumps its entry. -/
def countLine (option : CountOption) (freqs : FreqTable) (line : List Char) :
    FreqTable :=
  (tokenize option line).foldl incr freqs

/-- Run the per-chunk reader over every chunk in sequence, collecting the
decoded lines and failing at the first invalid chunk, as the successive
`line.unwrap()` calls of the loop do. -/
def readLines (f : α → Option β) : List α → Option (List β)
  | [] => some []
  | x :: xs =>
    match f x with
    | none => none
    | some y =>
      match readLines f xs with
      | none => none
      | some ys => some (y :: ys)

/-- `pub fn count(input: impl BufRead, option: CountOption) -> HashMap<String, usize>`.
Reads the byte stream line by line, tokenizes each line by `option` and
accumulates the frequency table; `none` embeds the panic on input that is
not valid UTF-8 (no table is produced). -/
def count (input : List Nat) (option : CountOption) : Option FreqTable :=
  match readLines readLine (splitLines input) with
  | none => none
  | some ls => some (ls.foldl (countLine option) [])

/-- The full token stream `count` would tabulate for an input: every decoded
line's tokens, concatenated in reading order (`none` on undecodable input). -/
def tokensOf (input : List Nat) (option : CountOption) : Option (List String) :=
  match readLines readLine (splitLines input) with
  | none => none
  | some ls => some (ls.flatMap (tokenize option))

/-- `dropWhile` never lengthens a list. -/
theorem length_dropWhile_le (p : α → Bool) :
    ∀ l : List α, (l.dropWhile p).length ≤ l.length
  | [] => Nat.le_refl _
  | a :: as => by
    rw [List.dropWhile_cons]
    split
    · exact Nat.le_succ_of_le (length_dropWhile_le p as)
    · exact Nat.le_refl _

/-- Specification-side decomposition of a line into its maximal blocks of
characters of constant word/non-word classification: each block takes as many
following characters of the same classification as possible, so blocks are
the maximal constant-classification runs and adjacent blocks alternate. -/
def classGroups : List Char → List (List Char)
  | [] => []
  | c :: cs =>
    (c :: cs.takeWhile (fun d => isWordChar d == isWordChar c))
      :: classGroups (cs.dropWhile (fun d => isWordChar d == isWordChar c))
termination_by l => l.length
decreasing_by
  simp only [List.length_cons]
  exact Nat.lt_succ_of_le (length_dropWhile_le _ cs)

/-! ### Lemmas about the frequency table accumulator -/

/-- Bumping key `k` adds one to the count of `k` and leaves every other
count unchanged. -/
theorem getCount_incr (t : FreqTable) (k k' : String) :
    getCount (incr t k) k' = getCount t k' + (if k = k' then 1 else 0) := by
  induction t with
  | nil =>
    simp only [incr, getCount]
    split <;> simp_all
  | cons a rest ih =>
    obtain ⟨a, v⟩ := a
    by_cases hak : a = k
    · subst hak
      simp only [incr, if_pos rfl, getCount]
      by_cases hk' : a = k' <;> simp [hk']
    · simp only [incr, if_neg hak, getCount]
      by_cases hk' : a = k'
      · subst hk'
        have hka : ¬k = a := fun h => hak h.symm
        simp [hka]
      · simp [hk', ih]

/-- Bumping any key adds exactly one to the sum of all counts. -/
theorem sumCounts_incr (t : FreqTable) (k : String) :
    sumCounts (incr t k) = sumCounts t + 1 := by
  induction t with
  | nil => simp [incr, sumCounts]
  | cons a rest ih =>
    obtain ⟨a, v⟩ := a
    by_cases hak : a = k
    · simp [incr, hak, sumCounts]
      omega
    · simp only [incr, if_neg hak, sumCounts, List.map_cons, List.sum_cons] at *
      omega

/-- Every entry of `incr t k` either has key `k` or was already in `t`. -/
theorem mem_incr {k : String} {kv : String × Nat} :
    ∀ {t : FreqTable}, kv ∈ incr t k → kv.1 = k ∨ kv ∈ t := by
  intro t
  induction t with
  | nil =>
    intro h
    simp only [incr] at h
    rw [List.mem_singleton.mp h]
    exact Or.inl rfl
  | cons a rest ih =>
    obtain ⟨a, v⟩ := a
    intro h
    by_cases hak : a = k
    · subst hak
      simp only [incr, if_pos rfl] at h
      rcases List.mem_cons.mp h with h1 | h1
      · subst h1; exact Or.inl rfl
      · exact Or.inr (List.mem_cons_of_mem _ h1)
    · simp only [incr, if_neg hak] at h
      rcases List.mem_cons.mp h with h1 | h1
      · subst h1; exact Or.inr (List.mem_cons_self _ _)
      · rcases ih h1 with h2 | h2
        · exact Or.inl h2
        · exact Or.inr (List.mem_cons_of_mem _ h2)

/-- `incr` preserves the invariant that every count is at least `1`. -/
theorem pos_incr {k : String} :
    ∀ {t : FreqTable}, (∀ kv ∈ t, 1 ≤ kv.2) → ∀ kv ∈ incr t k, 1 ≤ kv.2 := by
  intro t
  induction t with
  | nil =>
    intro hp
    intro kv hkv
    simp only [incr] at hkv
    rw [List.mem_singleton.mp hkv]
  | cons a rest ih =>
    obtain ⟨a, v⟩ := a
    intro hp kv hkv
    by_cases hak : a = k
    · simp only [incr, if_pos hak] at hkv
      rcases List.mem_cons.mp hkv with h1 | h1
      · subst h1; exact Nat.le_add_left 1 v
      · exact hp kv (List.mem_cons_of_mem _ h1)
    · simp only [incr, if_neg hak] at hkv
      rcases List.mem_cons.mp hkv with h1 | h1
      · subst h1; exact hp (a, v) (List.mem_cons_self _ _)
      · exact ih (fun kv hkv => hp kv (List.mem_cons_of_mem _ hkv)) kv h1

/-- Folding a token list into the table: each key ends with its previous
count plus its number of occurrences in the token list. -/
theorem getCount_foldl (toks : List String) :
    ∀ (t : FreqTable) (k : String),
      getCount (toks.foldl incr t) k = getCount t k + toks.count k := by
  induction toks with
  | nil => simp
  | cons s toks ih =>
    intro t k
    rw [List.foldl_cons, ih, getCount_incr, List.count_cons]
    by_cases h : s = k
    · simp only [h, if_pos rfl, beq_self_eq_true, if_true]
      omega
    · simp only [if_neg h, beq_iff_eq, if_neg h]
      omega

/-- Folding a token list into the table adds its length to the sum of
counts. -/
theorem sumCounts_foldl (toks : List String) :
    ∀ t : FreqTable,
      sumCounts (toks.foldl incr t) = sumCounts t + toks.length := by
  induction toks with
  | nil => simp
  | cons s toks ih =>
    intro t
    rw [List.foldl_cons, ih, sumCounts_incr, List.length_cons]
    omega

/-- Every entry after folding a token list either was in the initial table or
has one of the tokens as its key. -/
theorem mem_foldl_incr {toks : List String} :
    ∀ {t : FreqTable} {kv : String × Nat},
      kv ∈ toks.foldl incr t → kv ∈ t ∨ kv.1 ∈ toks := by
  induction toks with
  | nil => exact fun h => Or.inl h
  | cons s toks ih =>
    intro t kv h
    rw [List.foldl_cons] at h
    rcases ih h with h' | h'
    · rcases mem_incr h' with h'' | h''
      · exact Or.inr (h'' ▸ List.mem_cons_self _ _)
      · exact Or.inl h''
    · exact Or.inr (List.mem_cons_of_mem _ h')

/-- Folding a token list preserves positivity of all counts. -/
theorem pos_foldl_incr {toks : List String} :
    ∀ {t : FreqTable}, (∀ kv ∈ t, 1 ≤ kv.2) →
      ∀ kv ∈ toks.foldl incr t, 1 ≤ kv.2 := by
  induction toks with
  | nil => exact fun hp => hp
  | cons s toks ih =>
    intro t hp
    rw [List.foldl_cons]
    exact ih (pos_incr hp)

/-- Processing the decoded lines one by one is the same as folding the
concatenation of all their tokens into the table. -/
theorem foldl_countLine (option : CountOption) (ls : List (List Char)) :
    ∀ t : FreqTable,
      ls.foldl (countLine option) t
        = (ls.flatMap (tokenize option)).foldl incr t := by
  induction ls with
  | nil => intro t; rfl
  | cons l ls ih =>
    intro t
    rw [List.foldl_cons, ih, List.flatMap_cons, List.foldl_append]
    rfl

/-- `readLines` fails exactly when some element fails. -/
theorem readLines_eq_none_iff (f : α → Option β) :
    ∀ l : List α, readLines f l = none ↔ ∃ x ∈ l, f x = none := by
  intro l
  induction l with
  | nil => simp [readLines]
  | cons a as ih =>
    simp only [readLines]
    cases h : f a with
    | none =>
      exact iff_of_true rfl ⟨a, List.mem_cons_self _ _, h⟩
    | some b =>
      cases h2 : readLines f as with
      | none =>
        obtain ⟨x, hx, hfx⟩ := ih.mp h2
        exact iff_of_true rfl ⟨x, List.mem_cons_of_mem _ hx, hfx⟩
      | some bs =>
        constructor
        · intro hc; cases hc
        · rintro ⟨x, hx, hfx⟩
          rcases List.mem_cons.mp hx with rfl | hx'
          · rw [h] at hfx; cases hfx
          · have hn : readLines f as = none := ih.mpr ⟨x, hx', hfx⟩
            rw [h2] at hn; cases hn

/-- A chunk fails to read exactly when its bytes are not valid UTF-8. -/
theorem readLine_eq_none_iff (chunk : List Nat × Bool) :
    readLine chunk = none ↔ utf8Decode chunk.1 = none := by
  unfold readLine
  cases utf8Decode chunk.1 <;> simp

/-! ### The Word tokenizer produces exactly the maximal runs of word
characters -/

/-- The word runs of a line, per the specification: among the maximal
constant-classification blocks, exactly those made of word characters. -/
def maximalWordRuns (line : List Char) : List (List Char) :=
  (classGroups line).filter (fun r => r.all isWordChar)

/-- `takeWhile` walks through a prefix whose elements all satisfy `p`. -/
theorem takeWhile_append_of_all (p : α → Bool) {xs : List α} (ys : List α)
    (h : ∀ x ∈ xs, p x) : (xs ++ ys).takeWhile p = xs ++ ys.takeWhile p := by
  induction xs with
  | nil => simp
  | cons a as ih =>
    have ha : p a := h a (List.mem_cons_self a as)
    rw [List.cons_append, List.takeWhile_cons, if_pos ha, ih
      (fun x hx => h x (List.mem_cons_of_mem _ hx)), List.cons_append]

/-- `dropWhile` skips over a prefix whose elements all satisfy `p`. -/
theorem dropWhile_append_of_all (p : α → Bool) {xs : List α} (ys : List α)
    (h : ∀ x ∈ xs, p x) : (xs ++ ys).dropWhile p = ys.dropWhile p := by
  induction xs with
  | nil => simp
  | cons a as ih =>
    have ha : p a := h a (List.mem_cons_self a as)
    rw [List.cons_append, List.dropWhile_cons, if_pos ha, ih
      (fun x hx => h x (List.mem_cons_of_mem _ hx))]

/-- The blocks of `classGroups` concatenate back to the line: they are a
decomposition of it. -/
theorem classGroups_flatten : ∀ line : List Char,
    (classGroups line).flatten = line
  | [] => by simp [classGroups]
  | c :: cs => by
    have ih := classGroups_flatten
      (cs.dropWhile (fun d => isWordChar d == isWordChar c))
    simp only [classGroups, List.flatten_cons, ih, List.cons_append,
      List.takeWhile_append_dropWhile]
termination_by line => line.length
decreasing_by
  simp only [List.length_cons]
  exact Nat.lt_succ_of_le (length_dropWhile_le _ cs)

/-- Every block of `classGroups` is nonempty. -/
theorem classGroups_ne_nil : ∀ line : List Char,
    ∀ g ∈ classGroups line, g ≠ []
  | [] => by simp [classGroups]
  | c :: cs => by
    intro g hg
    have ih := classGroups_ne_nil
      (cs.dropWhile (fun d => isWordChar d == isWordChar c))
    simp only [classGroups] at hg
    rcases List.mem_cons.mp hg with h1 | h1
    · subst h1; exact List.cons_ne_nil _ _
    · exact ih g h1
termination_by line => line.length
decreasing_by
  simp only [List.length_cons]
  exact Nat.lt_succ_of_le (length_dropWhile_le _ cs)

/-- A line opening with a non-word character has the same word runs as the
line with its leading block of non-word characters removed. -/
theorem maximalWordRuns_cons_nonword {c : Char} (cs : List Char)
    (hw : isWordChar c = false) :
    maximalWordRuns (c :: cs)
      = maximalWordRuns (cs.dropWhile (fun d => !isWordChar d)) := by
  have hpred : (fun d => isWordChar d == isWordChar c)
      = (fun d => !isWordChar d) := by
    funext d
    rw [hw, beq_false]
  have h1 : classGroups (c :: cs)
      = (c :: cs.takeWhile (fun d => !isWordChar d))
        :: classGroups (cs.dropWhile (fun d => !isWordChar d)) := by
    simp only [classGroups, hpred]
  unfold maximalWordRuns
  rw [h1, List.filter_cons, if_neg]
  simp only [List.all_cons, hw, Bool.false_and, Bool.false_eq_true,
    not_false_eq_true]

/-- Dropping a leading block of non-word characters does not change the word
runs. -/
theorem maximalWordRuns_dropWhile (line : List Char) :
    maximalWordRuns (line.dropWhile (fun d => !isWordChar d))
      = maximalWordRuns line := by
  cases line with
  | nil => rfl
  | cons c cs =>
    cases hw : isWordChar c with
    | true => rw [List.dropWhile_cons, hw]; rfl
    | false =>
      rw [List.dropWhile_cons, hw, maximalWordRuns_cons_nonword cs hw]
      rfl

/-- A line opening with a non-word character contributes its tail's word
runs. -/
theorem maximalWordRuns_cons_nonword' {c : Char} (cs : List Char)
    (hw : isWordChar c = false) :
    maximalWordRuns (c :: cs) = maximalWordRuns cs :=
  (maximalWordRuns_cons_nonword cs hw).trans (maximalWordRuns_dropWhile cs)

/-- A nonempty all-word prefix followed by a non-word character and a rest is
one maximal run, followed by the runs of the rest. -/
theorem maximalWordRuns_run_append {a c : Char} (cur cs : List Char)
    (hcur : ∀ x ∈ a :: cur, isWordChar x) (hw : isWordChar c = false) :
    maximalWordRuns ((a :: cur) ++ c :: cs)
      = (a :: cur) :: maximalWordRuns (c :: cs) := by
  have ha : isWordChar a := hcur a (List.mem_cons_self a cur)
  have hcur' : ∀ x ∈ cur, isWordChar x = true :=
    fun x hx => hcur x (List.mem_cons_of_mem _ hx)
  unfold maximalWordRuns
  rw [List.cons_append]
  simp only [classGroups, ha, beq_true]
  rw [takeWhile_append_of_all isWordChar (c :: cs) hcur',
    dropWhile_append_of_all isWordChar (c :: cs) hcur',
    List.takeWhile_cons, if_neg (by rw [hw]; exact Bool.false_ne_true),
    List.dropWhile_cons, if_neg (by rw [hw]; exact Bool.false_ne_true),
    List.append_nil]
  rw [List.filter_cons, if_pos]
  · simp [classGroups]
  · exact List.all_eq_true.mpr hcur

/-- A nonempty all-word line is a single maximal run. -/
theorem maximalWordRuns_all_word {a : Char} (cur : List Char)
    (hcur : ∀ x ∈ a :: cur, isWordChar x) :
    maximalWordRuns (a :: cur) = [a :: cur] := by
  have ha : isWordChar a := hcur a (List.mem_cons_self a cur)
  have hcur' : ∀ x ∈ cur, isWordChar x = true :=
    fun x hx => hcur x (List.mem_cons_of_mem _ hx)
  unfold maximalWordRuns
  simp only [classGroups, ha, beq_true]
  rw [show cur.takeWhile isWordChar = cur ++ [].takeWhile isWordChar by
      simpa using takeWhile_append_of_all isWordChar [] hcur',
    show cur.dropWhile isWordChar = [].dropWhile isWordChar by
      simpa using dropWhile_append_of_all isWordChar [] hcur']
  simp only [List.takeWhile_nil, List.dropWhile_nil, List.append_nil]
  rw [show classGroups [] = [] by simp [classGroups]]
  rw [List.filter_cons, if_pos]
  · rfl
  · exact List.all_eq_true.mpr hcur

/-- The scanner `wordRunsAux`, started with a pending all-word run `cur`,
computes the maximal word runs of `cur` followed by the remaining input. -/
theorem wordRunsAux_eq_maximalWordRuns :
    ∀ (l cur : List Char), (∀ x ∈ cur, isWordChar x) →
      wordRunsAux cur l = maximalWordRuns (cur ++ l) := by
  intro l
  induction l with
  | nil =>
    intro cur hcur
    cases cur with
    | nil => simp [wordRunsAux, maximalWordRuns, classGroups]
    | cons a cur' =>
      rw [List.append_nil]
      simp only [wordRunsAux, List.isEmpty_cons, if_neg Bool.false_ne_true]
      exact (maximalWordRuns_all_word cur' hcur).symm
  | cons c cs ih =>
    intro cur hcur
    by_cases hw : isWordChar c
    · rw [show wordRunsAux cur (c :: cs) = wordRunsAux (cur ++ [c]) cs by
        simp [wordRunsAux, hw]]
      rw [ih (cur ++ [c]) (by
        intro x hx
        rcases List.mem_append.mp hx with h1 | h1
        · exact hcur x h1
        · rw [List.mem_singleton.mp h1]; exact hw)]
      rw [List.append_assoc, List.singleton_append]
    · have hw' : isWordChar c = false := Bool.eq_false_iff.mpr hw
      cases cur with
      | nil =>
        rw [show wordRunsAux [] (c :: cs) = wordRunsAux [] cs by
          simp [wordRunsAux, hw']]
        rw [ih [] (by simp), List.nil_append, List.nil_append,
          maximalWordRuns_cons_nonword' cs hw']
      | cons a cur' =>
        rw [show wordRunsAux (a :: cur') (c :: cs)
            = (a :: cur') :: wordRunsAux [] cs by simp [wordRunsAux, hw']]
        rw [ih [] (by simp), List.nil_append,
          maximalWordRuns_run_append cur' cs hcur hw',
          maximalWordRuns_cons_nonword' cs hw']

/-- `find_iter` for `\w+` yields exactly the maximal word runs. -/
theorem wordRuns_eq_maximalWordRuns (line : List Char) :
    wordRuns line = maximalWordRuns line := by
  rw [wordRuns, wordRunsAux_eq_maximalWordRuns line [] (by simp),
    List.nil_append]

/-! ### The claims -/

/-- C1: for every input and every mode, in the table returned by `count` the
count associated with each token equals the number of times the tokenizer for
that mode produced that token over the whole input, and the sum of all counts
in the table equals the total number of tokens produced. -/
theorem count_counts_every_token (input : List Nat) (option : CountOption)
    (freqs : FreqTable) (toks : List String)
    (hc : count input option = some freqs)
    (ht : tokensOf input option = some toks) :
    (∀ k : String, getCount freqs k = toks.count k)
      ∧ sumCounts freqs = toks.length := by
  unfold count at hc
  unfold tokensOf at ht
  cases hm : readLines readLine (splitLines input) with
  | none => rw [hm] at hc; cases hc
  | some ls =>
    rw [hm] at hc ht
    injection hc with hc
    injection ht with ht
    subst hc
    subst ht
    constructor
    · intro k
      rw [foldl_countLine, getCount_foldl]
      simp [getCount]
    · rw [foldl_countLine, sumCounts_foldl]
      simp [sumCounts]

/-- Witness for C1: the input `"a a"` in `Word` mode, whose table is
`{"a": 2}` and whose token stream is `["a", "a"]`. -/
theorem count_counts_every_token_witness :
    (∀ k : String, getCount [("a", 2)] k = (["a", "a"] : List String).count k)
      ∧ sumCounts [("a", 2)] = (["a", "a"] : List String).length :=
  count_counts_every_token [97, 32, 97] CountOption.Word [("a", 2)] ["a", "a"]
    (by decide) (by decide)

/-- C2: for every mode, `count` fails exactly when some line read from the
input is not valid UTF-8; failure yields no table at all (`none`), and no
other condition — an empty input, an all-punctuation input — can fail. -/
theorem count_fails_iff_invalid_utf8 (input : List Nat)
    (option : CountOption) :
    count input option = none ↔
      ∃ chunk ∈ splitLines input, utf8Decode chunk.1 = none := by
  have hr : ∀ chunk : List Nat × Bool,
      readLine chunk = none ↔ utf8Decode chunk.1 = none :=
    readLine_eq_none_iff
  unfold count
  cases hm : readLines readLine (splitLines input) with
  | none =>
    obtain ⟨c, hc, hrc⟩ := (readLines_eq_none_iff readLine (splitLines input)).mp hm
    exact iff_of_true rfl ⟨c, hc, (hr c).mp hrc⟩
  | some ls =>
    apply iff_of_false
    · exact fun hcontra => Option.noConfusion hcontra
    · rintro ⟨c, hc, hdc⟩
      have hn : readLines readLine (splitLines input) = none :=
        (readLines_eq_none_iff readLine (splitLines input)).mpr
          ⟨c, hc, (hr c).mpr hdc⟩
      rw [hm] at hn
      cases hn

/-- C4: `count` on the bytes of `"ab\ncd"` in `Char` mode is exactly the
table `{"a": 1, "b": 1, "c": 1, "d": 1}`: one token per Unicode scalar value
of each line, and the stripped line terminator produces no token. -/
theorem count_char_ab_cd :
    count [97, 98, 10, 99, 100] CountOption.Char
      = some [("a", 1), ("b", 1), ("c", 1), ("d", 1)] := by decide

/-- C5: `count` on the bytes of `"x\nx\ny"` in `Line` mode is exactly the
table `{"x": 2, "y": 1}`: each stripped line taken verbatim is one token and
duplicate lines bump the same entry. -/
theorem count_line_x_x_y :
    count [120, 10, 120, 10, 121] CountOption.Line
      = some [("x", 2), ("y", 1)] := by decide

/-- C6: `count` on the bytes of `"aa  cc dd"` (two consecutive spaces) in
`Word` mode is exactly the three-entry table
`{"aa": 1, "cc": 1, "dd": 1}`: consecutive separators never produce an empty
token or any extra entry. -/
theorem count_word_double_space :
    count [97, 97, 32, 32, 99, 99, 32, 100, 100] CountOption.Word
      = some [("aa", 1), ("cc", 1), ("dd", 1)] := by decide

/-- C7: the default `CountOption` is `Word`, and calling `count` with the
default option behaves as calling it with `CountOption::Word`. -/
theorem default_count_option_is_word :
    (default : CountOption) = CountOption.Word
      ∧ ∀ input : List Nat,
          count input (default : CountOption)
            = count input CountOption.Word :=
  ⟨rfl, fun _ => rfl⟩

/-- C8: `count` is deterministic: two runs on the same materialised input
with the same mode yield identical tables (the embedding is a pure function
of the input and mode; no other state enters). -/
theorem count_is_deterministic (input : List Nat) (option : CountOption)
    (t1 t2 : FreqTable) (h1 : count input option = some t1)
    (h2 : count input option = some t2) : t1 = t2 := by
  rw [h1] at h2
  exact Option.some.inj h2

/-- Witness for C8: two evaluations of `count` on `"a"` in `Word` mode. -/
theorem count_is_deterministic_witness :
    ([("a", 1)] : FreqTable) = [("a", 1)] :=
  count_is_deterministic [97] CountOption.Word [("a", 1)] [("a", 1)]
    (by decide) (by decide)

/-- C9: every count in a table returned by `count` is at least `1`: an entry
is created only when its token is observed, and is incremented at once. -/
theorem counts_are_positive (input : List Nat) (option : CountOption)
    (freqs : FreqTable) (h : count input option = some freqs) :
    ∀ kv ∈ freqs, 1 ≤ kv.2 := by
  unfold count at h
  cases hm : readLines readLine (splitLines input) with
  | none => rw [hm] at h; cases h
  | some ls =>
    rw [hm] at h
    injection h with h
    subst h
    rw [foldl_countLine]
    exact pos_foldl_incr (fun kv hkv => absurd hkv (List.not_mem_nil kv))

/-- Witness for C9 at the input `"a a b"` in `Word` mode, instantiated at the
entry for `"b"`. -/
theorem counts_are_positive_witness :
    1 ≤ (("b", 1) : String × Nat).2 :=
  counts_are_positive [97, 32, 97, 32, 98] CountOption.Word
    [("a", 2), ("b", 1)] (by decide) ("b", 1) (by decide)

/-- C10: in `Char` mode every key of the returned table is the rendering of
exactly one Unicode scalar value — a one-character, nonempty string. -/
theorem char_mode_keys_are_single_scalars (input : List Nat)
    (freqs : FreqTable) (h : count input CountOption.Char = some freqs) :
    ∀ kv ∈ freqs, ∃ c : Char, kv.1 = c.toString ∧ kv.1.length = 1 := by
  unfold count at h
  cases hm : readLines readLine (splitLines input) with
  | none => rw [hm] at h; cases h
  | some ls =>
    rw [hm] at h
    injection h with h
    subst h
    rw [foldl_countLine]
    intro kv hkv
    rcases mem_foldl_incr hkv with h1 | h1
    · exact absurd h1 (List.not_mem_nil kv)
    · rw [List.mem_flatMap] at h1
      obtain ⟨l, hl, htok⟩ := h1
      simp only [tokenize, List.mem_map] at htok
      obtain ⟨c, _, hc⟩ := htok
      refine ⟨c, hc.symm, ?_⟩
      rw [← hc]
      rfl

/-- Witness for C10 at the input `"aba"` in `Char` mode, instantiated at the
entry for `"b"`. -/
theorem char_mode_keys_are_single_scalars_witness :
    ∃ c : Char, (("b", 1) : String × Nat).1 = c.toString
      ∧ (("b", 1) : String × Nat).1.length = 1 :=
  char_mode_keys_are_single_scalars [97, 98, 97] [("a", 2), ("b", 1)]
    (by decide) ("b", 1) (by decide)
